import Mathlib

/-!
Verification of the streaming hash engine of `hash-gui` (`src/main.rs`).

The embedding models:
* the SHA-256 digest (the external `sha2` crate used by the program; the
  incremental `Digest::update` API depends only on the total absorbed byte
  sequence, so the accumulator is modelled by the byte list it has absorbed
  and `finalize` by `sha256Bytes`);
* `App::hash`: the per-file pipeline (reader loop + hasher loop joined by a
  channel).  The two worker lanes are modelled by their deterministic merged
  execution: `App.readLoop` produces exactly the chunks the reader thread
  sends, `App.hashLoop` produces the progress events the hasher thread
  attempts to send, and `App.hash` is the full event trace for a task whose
  consumer never disconnects.  `App.hashD` additionally takes the index `d` of
  the first send on the output channel that reports the receiver gone
  (sends are numbered from 0: the initial `Calculating 0` send is number 0,
  the send after chunk `k` is number `k`, the final `Finished` send is number
  `chunks + 1`); it returns the emitted trace together with the bytes the
  hasher absorbed.  Machine floats (`f64`/`f32`) of the progress computation
  are modelled by exact rationals; `u64` arithmetic never overflows here and
  is modelled by `Nat`.
* `App::update` / `App::subscription`: the tracked-entry list and the set of
  running pipelines (one subscription id per non-finished entry).
-/

/-- Reduce modulo 2^32, the word size of SHA-256. -/
def m32 (x : Nat) : Nat := x % 4294967296

/-- Right rotation of a 32-bit word. -/
def rotr32 (n x : Nat) : Nat := m32 ((x >>> n) ||| (x <<< (32 - n)))

/-- SHA-256 choice function. -/
def ch32 (x y z : Nat) : Nat := (x &&& y) ^^^ ((x ^^^ 4294967295) &&& z)

/-- SHA-256 majority function. -/
def maj32 (x y z : Nat) : Nat := (x &&& y) ^^^ (x &&& z) ^^^ (y &&& z)

/-- SHA-256 big sigma 0. -/
def bsig0 (x : Nat) : Nat := rotr32 2 x ^^^ rotr32 13 x ^^^ rotr32 22 x

/-- SHA-256 big sigma 1. -/
def bsig1 (x : Nat) : Nat := rotr32 6 x ^^^ rotr32 11 x ^^^ rotr32 25 x

/-- SHA-256 small sigma 0. -/
def ssig0 (x : Nat) : Nat := rotr32 7 x ^^^ rotr32 18 x ^^^ (x >>> 3)

/-- SHA-256 small sigma 1. -/
def ssig1 (x : Nat) : Nat := rotr32 17 x ^^^ rotr32 19 x ^^^ (x >>> 10)

/-- The 64 SHA-256 round constants (FIPS 180-4 section 4.2.2). -/
def shaK : List Nat :=
  [0x428A2F98, 0x71374491, 0xB5C0FBCF, 0xE9B5DBA5, 0x3956C25B, 0x59F111F1,
   0x923F82A4, 0xAB1C5ED5, 0xD807AA98, 0x12835B01, 0x243185BE, 0x550C7DC3,
   0x72BE5D74, 0x80DEB1FE, 0x9BDC06A7, 0xC19BF174, 0xE49B69C1, 0xEFBE4786,
   0x0FC19DC6, 0x240CA1CC, 0x2DE92C6F, 0x4A7484AA, 0x5CB0A9DC, 0x76F988DA,
   0x983E5152, 0xA831C66D, 0xB00327C8, 0xBF597FC7, 0xC6E00BF3, 0xD5A79147,
   0x06CA6351, 0x14292967, 0x27B70A85, 0x2E1B2138, 0x4D2C6DFC, 0x53380D13,
   0x650A7354, 0x766A0ABB, 0x81C2C92E, 0x92722C85, 0xA2BFE8A1, 0xA81A664B,
   0xC24B8B70, 0xC76C51A3, 0xD192E819, 0xD6990624, 0xF40E3585, 0x106AA070,
   0x19A4C116, 0x1E376C08, 0x2748774C, 0x34B0BCB5, 0x391C0CB3, 0x4ED8AA4A,
   0x5B9CCA4F, 0x682E6FF3, 0x748F82EE, 0x78A5636F, 0x84C87814, 0x8CC70208,
   0x90BEFFFA, 0xA4506CEB, 0xBEF9A3F7, 0xC67178F2]

/-- Split a list into consecutive pieces of length `k` (the last piece may be
shorter); `fuel` bounds the recursion and any `fuel ≥ length` is enough. -/
def chunksOf (k : Nat) : Nat → List Nat → List (List Nat)
  | 0, _ => []
  | _ + 1, [] => []
  | fuel + 1, a :: rest => ((a :: rest).take k) :: chunksOf k fuel ((a :: rest).drop k)

/-- Big-endian word from a list of bytes. -/
def wordOfBytes (l : List Nat) : Nat := l.foldl (fun acc b => acc * 256 + b) 0

/-- The four big-endian bytes of a 32-bit word. -/
def wordBytes (w : Nat) : List Nat := [(w >>> 24) % 256, (w >>> 16) % 256, (w >>> 8) % 256, w % 256]

/-- The eight big-endian bytes of the 64-bit message length field. -/
def lenBytes64 (n : Nat) : List Nat :=
  [(n >>> 56) % 256, (n >>> 48) % 256, (n >>> 40) % 256, (n >>> 32) % 256,
   (n >>> 24) % 256, (n >>> 16) % 256, (n >>> 8) % 256, n % 256]

/-- SHA-256 padding: append `0x80`, zero bytes up to 56 mod 64, and the
bit length as a 64-bit big-endian integer. -/
def padMsg (msg : List Nat) : List Nat :=
  msg ++ 128 :: (List.replicate ((119 - msg.length % 64) % 64) 0 ++ lenBytes64 (msg.length * 8))

/-- Extend the 16 message-schedule words to 64 by `t` extension steps. -/
def extendW : Nat → List Nat → List Nat
  | 0, w => w
  | t + 1, w =>
    let i := w.length
    extendW t (w ++ [m32 (ssig1 (w.getD (i - 2) 0) + w.getD (i - 7) 0 +
      ssig0 (w.getD (i - 15) 0) + w.getD (i - 16) 0)])

/-- The eight 32-bit working variables of SHA-256. -/
structure Hv where
  a : Nat
  b : Nat
  c : Nat
  d : Nat
  e : Nat
  f : Nat
  g : Nat
  h : Nat
deriving DecidableEq

/-- SHA-256 initial hash value (FIPS 180-4 section 5.3.3). -/
def shaH0 : Hv :=
  ⟨0x6A09E667, 0xBB67AE85, 0x3C6EF372, 0xA54FF53A,
   0x510E527F, 0x9B05688C, 0x1F83D9AB, 0x5BE0CD19⟩

/-- One SHA-256 compression round; `kw` is the pair of schedule word and
round constant. -/
def shaRound (s : Hv) (kw : Nat × Nat) : Hv :=
  let t1 := m32 (s.h + bsig1 s.e + ch32 s.e s.f s.g + kw.2 + kw.1)
  let t2 := m32 (bsig0 s.a + maj32 s.a s.b s.c)
  ⟨m32 (t1 + t2), s.a, s.b, s.c, m32 (s.d + t1), s.e, s.f, s.g⟩

/-- Compress one 64-byte block into the running hash value. -/
def compressBlock (s0 : Hv) (block : List Nat) : Hv :=
  let w := extendW 48 ((chunksOf 4 block.length block).map wordOfBytes)
  let s := (w.zip shaK).foldl shaRound s0
  ⟨m32 (s0.a + s.a), m32 (s0.b + s.b), m32 (s0.c + s.c), m32 (s0.d + s.d),
   m32 (s0.e + s.e), m32 (s0.f + s.f), m32 (s0.g + s.g), m32 (s0.h + s.h)⟩

/-- SHA-256 of a byte list: the reference digest, 32 bytes. -/
def sha256Bytes (msg : List Nat) : List Nat :=
  let padded := padMsg msg
  let s := (chunksOf 64 padded.length padded).foldl compressBlock shaH0
  ([s.a, s.b, s.c, s.d, s.e, s.f, s.g, s.h].map wordBytes).flatten

/-- Lowercase hexadecimal encoding of a byte list, two digits per byte — the
`format!("{:x}", hasher.finalize())` rendering of a digest (`Nat.digitChar`
yields the lowercase digits `0`–`f` for values below 16). -/
def hexLower (bytes : List Nat) : String :=
  String.mk ((bytes.map fun b => [Nat.digitChar (b / 16 % 16), Nat.digitChar (b % 16)]).flatten)

/-- `FileEntryState` of `src/main.rs`: `Idle`, `Calculating { progress }`,
`Finished { hash }`.  The `f32` progress is modelled by an exact rational. -/
inductive FileEntryState where
  | Idle
  | Calculating (progress : ℚ)
  | Finished (hash : String)
deriving DecidableEq

/-- `FileEntry` of `src/main.rs`: a pathname together with its state. -/
structure FileEntry where
  pathname : String
  state : FileEntryState
deriving DecidableEq

/-- The read chunk ceiling of the reader loop: `(1024 * 1024).min(remain)`
bytes are requested per `read_exact`. -/
def chunkCeil : Nat := 1024 * 1024

/-- True on `Calculating` events. -/
def isCalculating : FileEntryState → Bool
  | FileEntryState.Calculating _ => true
  | _ => false

/-- True on `Finished` events. -/
def isFinished : FileEntryState → Bool
  | FileEntryState.Finished _ => true
  | _ => false

/-- The progress values of the `Calculating` events of a trace, in order. -/
def calcPercents (evs : List FileEntryState) : List ℚ :=
  evs.filterMap fun e =>
    match e with
    | FileEntryState.Calculating p => some p
    | _ => none

namespace App

/-- The reader worker of `App::hash`: `while 0 < remain` it requests
`min chunkCeil remain` bytes with `read_exact`; a short file makes
`read_exact` fail and the loop return early (flag `false`), otherwise the
taken chunk is sent and the loop continues on the remaining bytes.  `rest` is
the byte stream the reads observe, `remain` counts down from the metadata
size; `fuel` only bounds the recursion and any `fuel ≥ remain` is enough. -/
def readLoop : Nat → List Nat → Nat → List (List Nat) × Bool
  | 0, _, remain => ([], remain == 0)
  | fuel + 1, rest, remain =>
    if remain = 0 then ([], true)
    else
      let rs := min chunkCeil remain
      if rest.length < rs then ([], false)
      else
        let r := readLoop fuel (rest.drop rs) (remain - rs)
        (rest.take rs :: r.1, r.2)

/-- The hasher worker of `App::hash`, progress side: for every received chunk
it adds the chunk length to `sum` and attempts to send
`Calculating (sum / filesize * 100)` (floats modelled exactly). -/
def hashLoop : List (List Nat) → Nat → Nat → List FileEntryState
  | [], _, _ => []
  | c :: rest, filesize, sum =>
    FileEntryState.Calculating (((sum + c.length : Nat) : ℚ) / (filesize : ℚ) * 100) ::
      hashLoop rest filesize (sum + c.length)

/-- The full event trace of `App::hash` for one task whose consumer never
disconnects: the initial `Calculating 0` send, one progress event per chunk
the reader produced, and the unconditional final `Finished` send carrying the
digest of the absorbed bytes (the `for data in rx` loop of the hasher ends
whenever the reader drops its sender — after the last chunk and also after a
failed read — and the hasher then finalizes and sends `Finished`). -/
def hash (content : List Nat) (filesize : Nat) : List FileEntryState :=
  let chunks := (readLoop filesize content filesize).1
  FileEntryState.Calculating 0 ::
    (hashLoop chunks filesize 0 ++
      [FileEntryState.Finished (hexLower (sha256Bytes chunks.flatten))])

/-- The event trace and the absorbed bytes of `App::hash` when the output
channel reports the receiver gone from send number `d` on (sends are numbered
0 for the initial `Calculating 0`, `k` for the send after chunk `k`, and
`chunks + 1` for the final `Finished` send).  `d = 0`: the initial
`output.send` fails and the stream returns `Err` before the workers are
spawned.  Otherwise chunk `k` is hashed iff `k ≤ d` (the hasher returns at
its first disconnected `try_send`, which happens after updating the digest
with chunk `d`), its progress event is emitted iff `k ≤ d - 1`, and the
`Finished` send goes through iff `chunks + 1 < d`. -/
def hashD (content : List Nat) (filesize d : Nat) : List FileEntryState × List Nat :=
  if d = 0 then ([], [])
  else
    let chunks := (readLoop filesize content filesize).1
    (FileEntryState.Calculating 0 ::
      (hashLoop (chunks.take (d - 1)) filesize 0 ++
        (if chunks.length + 2 ≤ d then
          [FileEntryState.Finished (hexLower (sha256Bytes chunks.flatten))]
        else [])),
     (chunks.take d).flatten)

/-- The messages of `App::update` that touch the entry list. -/
inductive Message where
  | CalculateProgress (data : Except Unit FileEntry)
  | FileDropped (pathname : String)
  | ClearHistory

/-- `iter_mut().find(|data| data.pathname == result.pathname)` followed by
`data.state = result.state`: update the state of the first entry with the
given pathname, if any. -/
def setFirst : List FileEntry → FileEntry → List FileEntry
  | [], _ => []
  | e :: rest, r =>
    if e.pathname == r.pathname then { e with state := r.state } :: rest
    else e :: setFirst rest r

/-- `App::update` restricted to its effect on `file_entries`.  `isFile` is the
`pathname.is_file()` filesystem predicate of the environment.  `ClearHistory`
either exits (empty list stays empty) or clears the list. -/
def update (isFile : String → Bool) (entries : List FileEntry) : Message → List FileEntry
  | Message.CalculateProgress (Except.ok result) => setFirst entries result
  | Message.CalculateProgress (Except.error _) => entries
  | Message.FileDropped pathname =>
    if (entries.all fun e => e.pathname != pathname) && isFile pathname then
      entries ++ [⟨pathname, FileEntryState.Idle⟩]
    else entries
  | Message.ClearHistory => []

/-- `App::subscription` restricted to the hashing subscriptions: one
subscription per entry whose state is not `Finished`, identified by the
entry's pathname (`Subscription::run_with_id(data.pathname, …)`). -/
def subscription (entries : List FileEntry) : List String :=
  (entries.filter fun e =>
    match e.state with
    | FileEntryState.Idle | FileEntryState.Calculating _ => true
    | FileEntryState.Finished _ => false).map fun e => e.pathname

end App

/-! ### Helper lemmas about the reader loop -/

theorem readLoop_remain_zero (fuel : Nat) (rest : List Nat) :
    App.readLoop fuel rest 0 = ([], true) := by
  cases fuel <;> simp [App.readLoop]

theorem one_le_chunkCeil : 1 ≤ chunkCeil := by norm_num [chunkCeil]

theorem readLoop_spec (fuel : Nat) : ∀ (rest : List Nat) (remain : Nat), remain ≤ fuel →
    remain ≤ rest.length →
    (App.readLoop fuel rest remain).1.flatten = rest.take remain ∧
      (App.readLoop fuel rest remain).2 = true := by
  induction fuel with
  | zero =>
    intro rest remain h1 _
    have hr : remain = 0 := Nat.le_zero.mp h1
    subst hr
    simp [App.readLoop]
  | succ fuel ih =>
    intro rest remain h1 h2
    by_cases hr : remain = 0
    · subst hr; simp [App.readLoop]
    · have hrs1 : 1 ≤ min chunkCeil remain :=
        le_min one_le_chunkCeil (by omega)
      have hrs2 : min chunkCeil remain ≤ remain := Nat.min_le_right ..
      have hlen : ¬ rest.length < min chunkCeil remain := by omega
      have ihh := ih (rest.drop (min chunkCeil remain)) (remain - min chunkCeil remain)
        (by omega) (by simp [List.length_drop]; omega)
      simp only [App.readLoop, if_neg hr, if_neg hlen]
      refine ⟨?_, ihh.2⟩
      rw [List.flatten_cons, ihh.1, ← List.take_add]
      congr 1
      omega

theorem readLoop_chunk_len (fuel : Nat) : ∀ (rest : List Nat) (remain : Nat),
    ∀ c ∈ (App.readLoop fuel rest remain).1, 0 < c.length ∧ c.length ≤ chunkCeil := by
  induction fuel with
  | zero => intro rest remain c hc; simp [App.readLoop] at hc
  | succ fuel ih =>
    intro rest remain c hc
    by_cases hr : remain = 0
    · subst hr; simp [App.readLoop] at hc
    · by_cases hlen : rest.length < min chunkCeil remain
      · simp only [App.readLoop, if_neg hr, if_pos hlen] at hc
        simp at hc
      · simp only [App.readLoop, if_neg hr, if_neg hlen, List.mem_cons] at hc
        rcases hc with hc | hc
        · subst hc
          have hrs1 : 1 ≤ min chunkCeil remain :=
            le_min one_le_chunkCeil (by omega)
          simp only [List.length_take]
          omega
        · exact ih _ _ c hc

theorem readLoop_fail (fuel : Nat) : ∀ (rest : List Nat) (remain : Nat), remain ≤ fuel →
    rest.length < remain → (App.readLoop fuel rest remain).2 = false := by
  induction fuel with
  | zero => intro rest remain h1 h2; omega
  | succ fuel ih =>
    intro rest remain h1 h2
    have hr : remain ≠ 0 := by omega
    by_cases hlen : rest.length < min chunkCeil remain
    · simp only [App.readLoop, if_neg hr, if_pos hlen]
    · have hrs1 : 1 ≤ min chunkCeil remain :=
        le_min one_le_chunkCeil (by omega)
      simp only [App.readLoop, if_neg hr, if_neg hlen]
      exact ih (rest.drop (min chunkCeil remain)) (remain - min chunkCeil remain)
        (by omega) (by simp [List.length_drop]; omega)

theorem readLoop_sum_le (fuel : Nat) : ∀ (rest : List Nat) (remain : Nat),
    (((App.readLoop fuel rest remain).1.map List.length).sum) ≤ remain := by
  induction fuel with
  | zero => intro rest remain; simp [App.readLoop]
  | succ fuel ih =>
    intro rest remain
    by_cases hr : remain = 0
    · subst hr; simp [App.readLoop]
    · by_cases hlen : rest.length < min chunkCeil remain
      · simp only [App.readLoop, if_neg hr, if_pos hlen]
        simp
      · have hrs2 : min chunkCeil remain ≤ remain := Nat.min_le_right ..
        have := ih (rest.drop (min chunkCeil remain)) (remain - min chunkCeil remain)
        simp only [App.readLoop, if_neg hr, if_neg hlen, List.map_cons, List.sum_cons]
        simp [List.length_take]
        omega

theorem readLoop_dropLast (fuel : Nat) : ∀ (rest : List Nat) (remain : Nat), remain ≤ fuel →
    remain ≤ rest.length →
    ∀ c ∈ (App.readLoop fuel rest remain).1.dropLast, c.length = chunkCeil := by
  induction fuel with
  | zero =>
    intro rest remain h1 _ c hc
    have hr : remain = 0 := by omega
    subst hr
    simp [App.readLoop] at hc
  | succ fuel ih =>
    intro rest remain h1 h2 c hc
    by_cases hr : remain = 0
    · subst hr; simp [App.readLoop] at hc
    · have hrs1 : 1 ≤ min chunkCeil remain := le_min one_le_chunkCeil (by omega)
      have hlen : ¬ rest.length < min chunkCeil remain := by omega
      simp only [App.readLoop, if_neg hr, if_neg hlen] at hc
      by_cases hrem : remain ≤ chunkCeil
      · have hrs : min chunkCeil remain = remain := by omega
        rw [hrs, Nat.sub_self, readLoop_remain_zero] at hc
        simp at hc
      · have hrs : min chunkCeil remain = chunkCeil := by omega
        rw [hrs] at hc
        rcases hrec : (App.readLoop fuel (rest.drop chunkCeil) (remain - chunkCeil)).1 with _ | ⟨c0, l0⟩
        · rw [hrec] at hc; simp at hc
        · rw [hrec, List.dropLast_cons_of_ne_nil (List.cons_ne_nil c0 l0)] at hc
          rcases List.mem_cons.mp hc with hc | hc
          · subst hc
            simp only [List.length_take]
            omega
          · have ihh := ih (rest.drop chunkCeil) (remain - chunkCeil) (by omega)
              (by simp only [List.length_drop]; omega)
            rw [hrec] at ihh
            exact ihh c hc

theorem readLoop_count : ∀ (k fuel : Nat) (rest : List Nat), k * chunkCeil ≤ fuel →
    k * chunkCeil ≤ rest.length →
    (App.readLoop fuel rest (k * chunkCeil)).1.length = k := by
  intro k
  induction k with
  | zero =>
    intro fuel rest _ _
    rw [Nat.zero_mul, readLoop_remain_zero]
    rfl
  | succ k ih =>
    intro fuel rest h1 h2
    have hCC := one_le_chunkCeil
    rw [Nat.succ_mul] at h1 h2 ⊢
    have hr : k * chunkCeil + chunkCeil ≠ 0 := by omega
    obtain ⟨fuel', rfl⟩ : ∃ f, fuel = f + 1 := ⟨fuel - 1, by omega⟩
    have hmin : min chunkCeil (k * chunkCeil + chunkCeil) = chunkCeil := by omega
    have hlen : ¬ rest.length < min chunkCeil (k * chunkCeil + chunkCeil) := by omega
    simp only [App.readLoop, if_neg hr, if_neg hlen, List.length_cons]
    rw [hmin, Nat.add_sub_cancel]
    rw [ih fuel' (rest.drop chunkCeil) (by omega) (by simp only [List.length_drop]; omega)]

/-! ### Helper lemmas about the hasher loop and the full trace -/

theorem hashLoop_countCalc : ∀ (chunks : List (List Nat)) (n sum : Nat),
    List.countP isCalculating (App.hashLoop chunks n sum) = chunks.length := by
  intro chunks
  induction chunks with
  | nil => intro n sum; simp [App.hashLoop]
  | cons c rest ih =>
    intro n sum
    simp [App.hashLoop, List.countP_cons, isCalculating, ih]

theorem hashLoop_countFin : ∀ (chunks : List (List Nat)) (n sum : Nat),
    List.countP isFinished (App.hashLoop chunks n sum) = 0 := by
  intro chunks
  induction chunks with
  | nil => intro n sum; simp [App.hashLoop]
  | cons c rest ih =>
    intro n sum
    simp [App.hashLoop, List.countP_cons, isFinished, ih]

theorem hashLoop_chain : ∀ (chunks : List (List Nat)) (n sum : Nat), 0 < n →
    (∀ c ∈ chunks, 0 < c.length) →
    List.Chain' (· < ·) (((sum : ℚ) / (n : ℚ) * 100) :: calcPercents (App.hashLoop chunks n sum)) := by
  intro chunks
  induction chunks with
  | nil => intro n sum _ _; simp [App.hashLoop, calcPercents]
  | cons c rest ih =>
    intro n sum hn hc
    have hlen : 0 < c.length := hc c (by simp)
    have hn' : (0 : ℚ) < (n : ℚ) := by exact_mod_cast hn
    simp only [App.hashLoop, calcPercents, List.filterMap_cons] at *
    rw [List.chain'_cons]
    refine ⟨?_, ih n (sum + c.length) hn fun d hd => hc d (by simp [hd])⟩
    have h1 : (sum : ℚ) < ((sum + c.length : Nat) : ℚ) := by
      exact_mod_cast Nat.lt_add_of_pos_right hlen
    gcongr

theorem hashLoop_bounds : ∀ (chunks : List (List Nat)) (n sum : Nat), 0 < n →
    sum + (chunks.map List.length).sum ≤ n →
    ∀ p ∈ calcPercents (App.hashLoop chunks n sum), 0 ≤ p ∧ p ≤ 100 := by
  intro chunks
  induction chunks with
  | nil => intro n sum _ _ p hp; simp [App.hashLoop, calcPercents] at hp
  | cons c rest ih =>
    intro n sum hn hsum p hp
    have hn' : (0 : ℚ) < (n : ℚ) := by exact_mod_cast hn
    simp only [App.hashLoop, calcPercents, List.filterMap_cons, List.map_cons,
      List.sum_cons] at hp hsum
    rcases List.mem_cons.mp hp with hp | hp
    · subst hp
      constructor
      · positivity
      · have hle : ((sum + c.length : Nat) : ℚ) / (n : ℚ) ≤ 1 := by
          rw [div_le_one hn']
          exact_mod_cast (by omega : sum + c.length ≤ n)
        nlinarith
    · exact ih n (sum + c.length) hn (by omega) p hp

theorem hash_getLast_flatten (content : List Nat) (n : Nat) :
    (App.hash content n).getLast? =
      some (FileEntryState.Finished (hexLower (sha256Bytes ((App.readLoop n content n).1.flatten)))) := by
  simp only [App.hash]
  rw [← List.cons_append, List.getLast?_concat]

theorem hash_countFin (content : List Nat) (n : Nat) :
    List.countP isFinished (App.hash content n) = 1 := by
  simp [App.hash, List.countP_cons, List.countP_append, hashLoop_countFin, isFinished]

theorem hash_calcPercents (content : List Nat) (n : Nat) :
    calcPercents (App.hash content n) =
      0 :: calcPercents (App.hashLoop (App.readLoop n content n).1 n 0) := by
  simp [App.hash, calcPercents, List.filterMap_append, List.filterMap_cons]

theorem hash_chain (content : List Nat) (n : Nat) :
    List.Chain' (· < ·) (calcPercents (App.hash content n)) := by
  rw [hash_calcPercents]
  rcases hchunks : (App.readLoop n content n).1 with _ | ⟨c, rest⟩
  · simp [App.hashLoop, calcPercents]
  · have hn : 0 < n := by
      by_contra h
      have h0 : n = 0 := by omega
      rw [h0, readLoop_remain_zero] at hchunks
      simp at hchunks
    have hch := hashLoop_chain (c :: rest) n 0 hn fun d hd =>
      (readLoop_chunk_len n content n d (by rw [hchunks]; exact hd)).1
    have h0 : ((0 : Nat) : ℚ) / (n : ℚ) * 100 = 0 := by simp
    rw [h0] at hch
    exact hch

/-! ### Helper lemmas about the application state -/

theorem setFirst_eq_of_not_mem (r : FileEntry) : ∀ (entries : List FileEntry),
    (∀ e ∈ entries, e.pathname ≠ r.pathname) → App.setFirst entries r = entries := by
  intro entries
  induction entries with
  | nil => intro _; rfl
  | cons e rest ih =>
    intro h
    have hne : e.pathname ≠ r.pathname := h e (by simp)
    simp only [App.setFirst, if_neg (by simp [hne] : ¬ (e.pathname == r.pathname) = true)]
    rw [ih fun d hd => h d (by simp [hd])]

theorem subscription_nodup (entries : List FileEntry)
    (h : List.Pairwise (fun a b : FileEntry => a.pathname ≠ b.pathname) entries) :
    (App.subscription entries).Nodup := by
  exact List.pairwise_map.mpr (h.filter _)

/-! ### Claim theorems -/

set_option maxRecDepth 100000

/-- C1: the claim says a task whose chunked read fails partway emits no
Completed event.  The code violates this: on a read error the reader thread
returns and drops its channel sender, which the hasher cannot distinguish
from a normal end of input, so the hasher still finalizes and emits
`Finished`.  Concretely, for a task with metadata size 2 whose readable
content is the single byte `[7]`, the chunk read fails (`readLoop` flag is
`false`) and yet the emitted trace ends with a `Finished` event carrying the
digest of the zero bytes that were absorbed. -/
theorem read_error_still_emits_completed :
    (App.readLoop 2 [7] 2).2 = false ∧
      App.hash [7] 2 = [FileEntryState.Calculating 0,
        FileEntryState.Finished
          "e3b0c44298fc1c149afbf4c8996fb92427ae41e4649b934ca495991b7852b855"] := by
  decide

/-- C2: for a file read to successful completion (the observed byte stream
has exactly the metadata length), the digest in the final `Finished` event is
the lowercase hexadecimal encoding of the reference SHA-256 of the file's
full content. -/
theorem completed_digest_is_sha256 (content : List Nat) (n : Nat) (h : content.length = n) :
    (App.hash content n).getLast? =
      some (FileEntryState.Finished (hexLower (sha256Bytes content))) := by
  rw [hash_getLast_flatten, (readLoop_spec n content n le_rfl h.ge).1, ← h, List.take_length]

/-- C2 witness: the empty file; the digest is the known SHA-256 of the empty
input. -/
theorem completed_digest_is_sha256_witness :
    ([] : List Nat).length = 0 ∧
      (App.hash [] 0).getLast? =
        some (FileEntryState.Finished (hexLower (sha256Bytes []))) ∧
      hexLower (sha256Bytes []) =
        "e3b0c44298fc1c149afbf4c8996fb92427ae41e4649b934ca495991b7852b855" :=
  ⟨rfl, completed_digest_is_sha256 [] 0 rfl, by decide⟩

/-- C3 counterexample: the claim says progress events are throttled so that at
most one event is emitted per observable percentage point.  The code has no
such filter: it attempts one send per chunk.  For a 200-chunk file
(200 · 1 MiB bytes) the emitted trace contains 201 `Calculating` events, more
than the at most 101 an event-per-percentage-point policy could produce. -/
theorem per_percentage_point_counterexample :
    List.countP isCalculating
        (App.hash (List.replicate (200 * chunkCeil) 0) (200 * chunkCeil)) = 201 ∧
      101 < 201 := by
  have hcount := readLoop_count 200 (200 * chunkCeil) (List.replicate (200 * chunkCeil) 0)
    le_rfl (by rw [List.length_replicate])
  refine ⟨?_, by norm_num⟩
  simp only [App.hash, List.countP_cons, List.countP_append, List.countP_nil,
    hashLoop_countCalc, hcount]
  simp [isCalculating, isFinished]

/-- C3 amended: the progress values of successively emitted `InProgress`
events are strictly increasing (in the exact arithmetic of the model), but
the pipeline emits one progress event per chunk — the count of `Calculating`
events is one (the initial `Calculating 0`) plus the chunk count — with no
last-emitted-percent filter bounding the volume per percentage point. -/
theorem progress_strict_chain_per_chunk (content : List Nat) (n : Nat) :
    List.Chain' (· < ·) (calcPercents (App.hash content n)) ∧
      List.countP isCalculating (App.hash content n) =
        1 + (App.readLoop n content n).1.length := by
  refine ⟨hash_chain content n, ?_⟩
  simp only [App.hash, List.countP_cons, List.countP_append, List.countP_nil,
    hashLoop_countCalc]
  simp [isCalculating, isFinished]
  omega

/-- C4 counterexample: the claim says a 0-byte file yields a single Completed
event with no intervening InProgress event before it.  The code always emits
the initial `Calculating 0` send before spawning the workers, so the 0-byte
trace is `[InProgress 0, Completed (digest of zero bytes)]`: an InProgress
event precedes the Completed event. -/
theorem zero_byte_counterexample :
    App.hash [] 0 = [FileEntryState.Calculating 0,
      FileEntryState.Finished
        "e3b0c44298fc1c149afbf4c8996fb92427ae41e4649b934ca495991b7852b855"] ∧
      List.countP isCalculating (App.hash [] 0) = 1 := by
  decide

/-- C4 amended: a task of metadata size 0 emits exactly two events — the
initial `InProgress 0` (emitted for every task before any bytes are read)
followed by a single `Completed` with the digest of zero bytes; the per-chunk
progress computation (the only division) never runs, so no division-by-zero
`InProgress` is emitted. -/
theorem zero_byte_trace (content : List Nat) :
    App.hash content 0 = [FileEntryState.Calculating 0,
      FileEntryState.Finished (hexLower (sha256Bytes []))] := by
  simp [App.hash, readLoop_remain_zero, App.hashLoop]

/-- C5: for a successfully completed task (observed bytes match the metadata
size) the trace starts with `InProgress 0` before any bytes are read, its
`InProgress` percents are non-decreasing and bounded in [0, 100], and exactly
one `Completed` event occurs, as the last event, carrying the digest of the
content. -/
theorem success_trace_shape (content : List Nat) (n : Nat) (h : content.length = n) :
    (App.hash content n).head? = some (FileEntryState.Calculating 0) ∧
      List.Chain' (· ≤ ·) (calcPercents (App.hash content n)) ∧
      (∀ p ∈ calcPercents (App.hash content n), 0 ≤ p ∧ p ≤ 100) ∧
      (App.hash content n).getLast? =
        some (FileEntryState.Finished (hexLower (sha256Bytes content))) ∧
      List.countP isFinished (App.hash content n) = 1 := by
  refine ⟨by simp [App.hash], ?_, ?_, ?_, hash_countFin content n⟩
  · exact List.Chain'.imp (fun a b hab => le_of_lt hab) (hash_chain content n)
  · intro p hp
    rw [hash_calcPercents] at hp
    rcases List.mem_cons.mp hp with hp | hp
    · subst hp; norm_num
    · rcases Nat.eq_zero_or_pos n with hn | hn
      · subst hn
        rw [readLoop_remain_zero] at hp
        simp [App.hashLoop, calcPercents] at hp
      · exact hashLoop_bounds _ n 0 hn (by simpa using readLoop_sum_le n content n) p hp
  · rw [hash_getLast_flatten, (readLoop_spec n content n le_rfl h.ge).1, ← h, List.take_length]

/-- C5 witness: a concrete 2-byte file. -/
theorem success_trace_shape_witness :
    ([1, 2] : List Nat).length = 2 ∧
      ((App.hash [1, 2] 2).head? = some (FileEntryState.Calculating 0) ∧
        List.Chain' (· ≤ ·) (calcPercents (App.hash [1, 2] 2)) ∧
        (∀ p ∈ calcPercents (App.hash [1, 2] 2), 0 ≤ p ∧ p ≤ 100) ∧
        (App.hash [1, 2] 2).getLast? =
          some (FileEntryState.Finished (hexLower (sha256Bytes [1, 2]))) ∧
        List.countP isFinished (App.hash [1, 2] 2) = 1) :=
  ⟨rfl, success_trace_shape [1, 2] 2 rfl⟩

/-- C6: for a file read without error (observed bytes match the metadata
size `N`), the reader yields chunks in strict file order whose concatenation
is exactly the content (total length `N`), each chunk at most the 1 MiB
ceiling, and every chunk but the last exactly the ceiling — the last chunk
exactly consumes the remainder. -/
theorem chunked_reader_spec (content : List Nat) (n : Nat) (h : content.length = n) :
    (App.readLoop n content n).2 = true ∧
      (App.readLoop n content n).1.flatten = content ∧
      (∀ c ∈ (App.readLoop n content n).1, 0 < c.length ∧ c.length ≤ chunkCeil) ∧
      ∀ c ∈ (App.readLoop n content n).1.dropLast, c.length = chunkCeil := by
  have hs := readLoop_spec n content n le_rfl h.ge
  exact ⟨hs.2, by rw [hs.1, ← h, List.take_length], readLoop_chunk_len n content n,
    readLoop_dropLast n content n le_rfl h.ge⟩

/-- C6 witness: a concrete 3-byte file read in one chunk. -/
theorem chunked_reader_spec_witness :
    ([3, 1, 4] : List Nat).length = 3 ∧
      ((App.readLoop 3 [3, 1, 4] 3).2 = true ∧
        (App.readLoop 3 [3, 1, 4] 3).1.flatten = [3, 1, 4] ∧
        (∀ c ∈ (App.readLoop 3 [3, 1, 4] 3).1, 0 < c.length ∧ c.length ≤ chunkCeil) ∧
        ∀ c ∈ (App.readLoop 3 [3, 1, 4] 3).1.dropLast, c.length = chunkCeil) :=
  ⟨rfl, chunked_reader_spec [3, 1, 4] 3 rfl⟩

/-- C7: if the output channel reports the receiver gone at send number `d`
before the final send could succeed (`d ≤ chunks + 1`), the pipeline emits no
`Completed` event at all, and the bytes hashed are exactly the chunks up to
and including the one whose send first reported the disconnect — no further
chunk is hashed after the signal (the case `d = 0` is the very first send:
nothing is emitted and nothing is hashed). -/
theorem disconnect_stops_pipeline (content : List Nat) (n d : Nat)
    (h : d ≤ (App.readLoop n content n).1.length + 1) :
    List.countP isFinished (App.hashD content n d).1 = 0 ∧
      (App.hashD content n d).2 = ((App.readLoop n content n).1.take d).flatten := by
  by_cases hd : d = 0
  · subst hd; simp [App.hashD]
  · have hfin : ¬ ((App.readLoop n content n).1.length + 2 ≤ d) := by omega
    constructor
    · simp only [App.hashD, if_neg hd, if_neg hfin]
      simp [List.countP_cons, List.countP_append, hashLoop_countFin, isFinished]
    · simp [App.hashD, if_neg hd]

/-- C7 witness: a 1-byte file whose consumer disconnects at the first
progress send. -/
theorem disconnect_stops_pipeline_witness :
    1 ≤ (App.readLoop 1 [5] 1).1.length + 1 ∧
      (List.countP isFinished (App.hashD [5] 1 1).1 = 0 ∧
        (App.hashD [5] 1 1).2 = ((App.readLoop 1 [5] 1).1.take 1).flatten) :=
  ⟨by decide, disconnect_stops_pipeline [5] 1 1 (by decide)⟩

/-- C8: dropping a pathname that is already tracked (whatever its state) is a
no-op on the entry list, dropping a pathname that does not resolve to a
regular file is a no-op, the pairwise-distinct-pathname invariant of the
entry list is preserved so the subscription ids (one pipeline per
non-finished entry, keyed by pathname) stay pairwise distinct — no second
pipeline for an identity — and any single pipeline trace contains exactly one
`Finished` event, so no identity produces a duplicate Completed event. -/
theorem begin_idempotent (isFile : String → Bool) (entries : List FileEntry) (p : String) :
    ((∃ e ∈ entries, e.pathname = p) →
        App.update isFile entries (App.Message.FileDropped p) = entries) ∧
      (isFile p = false → App.update isFile entries (App.Message.FileDropped p) = entries) ∧
      (List.Pairwise (fun a b : FileEntry => a.pathname ≠ b.pathname) entries →
        List.Pairwise (fun a b : FileEntry => a.pathname ≠ b.pathname)
            (App.update isFile entries (App.Message.FileDropped p)) ∧
          (App.subscription (App.update isFile entries (App.Message.FileDropped p))).Nodup) ∧
      ∀ (c : List Nat) (m : Nat), List.countP isFinished (App.hash c m) = 1 := by
  refine ⟨?_, ?_, ?_, fun c m => hash_countFin c m⟩
  · rintro ⟨e, he, hep⟩
    have hall : (entries.all fun e => e.pathname != p) = false :=
      List.all_eq_false.mpr ⟨e, he, by simp [hep]⟩
    simp [App.update, hall]
  · intro hf
    simp [App.update, hf]
  · intro hpw
    have hupd : List.Pairwise (fun a b : FileEntry => a.pathname ≠ b.pathname)
        (App.update isFile entries (App.Message.FileDropped p)) := by
      simp only [App.update]
      by_cases hcond : ((entries.all fun e => e.pathname != p) && isFile p) = true
      · rw [if_pos hcond]
        rw [List.pairwise_append]
        refine ⟨hpw, List.pairwise_singleton .., ?_⟩
        intro a ha b hb
        simp only [List.mem_singleton] at hb
        subst hb
        have hall := ((Bool.and_eq_true _ _).mp hcond).1
        rw [List.all_eq_true] at hall
        simpa using hall a ha
      · rw [if_neg hcond]; exact hpw
    exact ⟨hupd, subscription_nodup _ hupd⟩

/-- C8 witness: re-dropping an already tracked pathname is a no-op and the
invariants hold on a concrete one-entry state. -/
theorem begin_idempotent_witness :
    (∃ e ∈ ([⟨"a", FileEntryState.Idle⟩] : List FileEntry), e.pathname = "a") ∧
      App.update (fun _ => true) [⟨"a", FileEntryState.Idle⟩] (App.Message.FileDropped "a") =
        [⟨"a", FileEntryState.Idle⟩] :=
  ⟨⟨⟨"a", FileEntryState.Idle⟩, by simp, rfl⟩,
    (begin_idempotent (fun _ => true) [⟨"a", FileEntryState.Idle⟩] "a").1
      ⟨⟨"a", FileEntryState.Idle⟩, by simp, rfl⟩⟩

/-- C9 counterexample: the claim says any change of the underlying file's
size during processing, in either direction, is a failure condition and the
task does not complete.  The code completes a grown file: with metadata size
1 and an observed byte stream of 2 bytes (the file grew), all reads succeed
and the trace ends with a `Completed` event (digest of the first byte) — the
growth is ignored, not a failure. -/
theorem size_growth_completes_counterexample :
    App.hash [0, 0] 1 = [FileEntryState.Calculating 0, FileEntryState.Calculating 100,
      FileEntryState.Finished (hexLower (sha256Bytes [0]))] := by
  simp [App.hash, App.readLoop, App.hashLoop, chunkCeil]

/-- C9 amended: the size captured from metadata before the first chunk is
authoritative — the pipeline reads exactly `size` bytes.  If the file grows,
the task completes normally with the digest of the first `size` bytes (growth
is not a failure).  If the file shrinks below `size`, the chunk read fails
and reading aborts early. -/
theorem size_captured_authoritative (content : List Nat) (n : Nat) :
    (n ≤ content.length →
        (App.readLoop n content n).2 = true ∧
          (App.hash content n).getLast? =
            some (FileEntryState.Finished (hexLower (sha256Bytes (content.take n))))) ∧
      (content.length < n → (App.readLoop n content n).2 = false) := by
  constructor
  · intro hlen
    have hs := readLoop_spec n content n le_rfl hlen
    exact ⟨hs.2, by rw [hash_getLast_flatten, hs.1]⟩
  · intro hlen
    exact readLoop_fail n content n le_rfl hlen

/-- C9 witness: a grown file (metadata 1, content 2 bytes) completes with the
digest of its first byte; a shrunk file (metadata 1, no content) fails its
read. -/
theorem size_captured_authoritative_witness :
    (1 ≤ ([9, 9] : List Nat).length) ∧
      ((App.readLoop 1 [9, 9] 1).2 = true ∧
        (App.hash [9, 9] 1).getLast? =
          some (FileEntryState.Finished (hexLower (sha256Bytes (([9, 9] : List Nat).take 1))))) ∧
      (([] : List Nat).length < 1) ∧ (App.readLoop 1 [] 1).2 = false :=
  ⟨by decide, (size_captured_authoritative [9, 9] 1).1 (by decide), by decide,
    (size_captured_authoritative [] 1).2 (by decide)⟩

/-- C10: an incoming progress/result event whose pathname matches no tracked
entry leaves the entry list completely unchanged (the `find` yields nothing
and the event is dropped); an `Err` event likewise changes nothing. -/
theorem untracked_event_is_noop (isFile : String → Bool) (entries : List FileEntry)
    (r : FileEntry) (h : ∀ e ∈ entries, e.pathname ≠ r.pathname) :
    App.update isFile entries (App.Message.CalculateProgress (Except.ok r)) = entries ∧
      App.update isFile entries (App.Message.CalculateProgress (Except.error ())) = entries :=
  ⟨setFirst_eq_of_not_mem r entries h, rfl⟩

/-- C10 witness: an event for pathname `b` against a list tracking only `a`. -/
theorem untracked_event_is_noop_witness :
    (∀ e ∈ ([⟨"a", FileEntryState.Idle⟩] : List FileEntry),
        e.pathname ≠ (⟨"b", FileEntryState.Finished "x"⟩ : FileEntry).pathname) ∧
      App.update (fun _ => false) [⟨"a", FileEntryState.Idle⟩]
          (App.Message.CalculateProgress (Except.ok ⟨"b", FileEntryState.Finished "x"⟩)) =
        [⟨"a", FileEntryState.Idle⟩] :=
  ⟨by decide,
    (untracked_event_is_noop (fun _ => false) [⟨"a", FileEntryState.Idle⟩]
      ⟨"b", FileEntryState.Finished "x"⟩ (by decide)).1⟩
